import Mathlib

/-!
A shallow embedding of `blockbuffer/blockbuffer.py` (class `BlockBuffer`),
a ring buffer that accumulates audio frames and emits fixed-size,
optionally overlapping blocks.

Modelling conventions:
* A sample is an `Int` (the claims only involve exact small integer values,
  which every supported dtype represents exactly).
* A frame (one sample per channel) is a `List Int` of length `num_channels`.
* The numpy arrays `queue` and the incoming `frames` argument are lists of
  frames.  `return_buffer` is not part of the state: every wrap-around read
  overwrites all of its `block_size` rows before returning it, so its value
  is exactly the assembled list that `readBlock` produces.
* Python exceptions are an explicit error type; a raising call returns
  `Except.error` and, mirroring the source where every `raise` happens
  before any state mutation of that code path, no successor state.
* Machine integers: Python integers are unbounded, so `Nat`/`Int` with
  Python's `%` (which agrees with `Nat.mod` / `Int.emod` for a positive
  modulus) is exact.
* The constructor is modelled twice: `initError` works on raw Python-level
  arguments (`Int`, optional) and reproduces the validation including the
  `if capacity:` truthiness test; `mkBlockBuffer` builds the state that a
  successful construction produces.
* The write paths assume `num_channels ≥ 1` (the spec's data model makes
  `num_channels` a positive integer); for `num_channels = 0` numpy itself
  would fault on column writes, which no claim exercises.
-/

/-- One frame: one sample per channel. -/
abbrev Frame := List Int

/-- The exception kinds the source can raise.
`valueError` is `BlockBufferValueException`, `bufferFull` is
`BlockBufferFullException`, and `indexError` is a Python `IndexError`
(raised by out-of-range indexing, e.g. `frames[0]` on an empty list or
`frames.shape[1]` on a 1-D array). -/
inductive BBError where
  | valueError
  | bufferFull
  | indexError
deriving DecidableEq

/-- State of a `BlockBuffer` instance (the mutable attributes of the
Python object, minus `return_buffer`, see the module comment). -/
structure BlockBuffer where
  block_size : Nat
  hop_size : Nat
  num_channels : Nat
  capacity : Nat
  auto_resize : Bool
  always_2d : Bool
  queue : List Frame
  write_position : Nat
  read_position : Nat
  length : Nat
deriving DecidableEq

/-- The module-level constant `BLOCK_BUFFER_DEFAULT_CAPACITY_BLOCKS = 64`. -/
def BLOCK_BUFFER_DEFAULT_CAPACITY_BLOCKS : Int := 64

/-- The effective hop: `hop_size if hop_size is not None else block_size`. -/
def hopEff (block_size : Int) (hop_size : Option Int) : Int :=
  hop_size.getD block_size

/-- The capacity the constructor stores: `if capacity: self.capacity = capacity
else: self.capacity = block_size * BLOCK_BUFFER_DEFAULT_CAPACITY_BLOCKS`.
Python truthiness: `None` and `0` are falsy, every other integer is truthy. -/
def capacityEff (block_size : Int) (capacity : Option Int) : Int :=
  match capacity with
  | none => block_size * BLOCK_BUFFER_DEFAULT_CAPACITY_BLOCKS
  | some c => if c = 0 then block_size * BLOCK_BUFFER_DEFAULT_CAPACITY_BLOCKS else c

/-- The validation sequence of `BlockBuffer.__init__`, on raw Python-level
arguments.  Returns the exception kind raised, or `none` when construction
succeeds.  All four checks run before any storage is allocated. -/
def initError (block_size : Int) (hop_size : Option Int) (capacity : Option Int) :
    Option BBError :=
  let hop := hopEff block_size hop_size
  let cap := capacityEff block_size capacity
  if hop = 0 then some .valueError
  else if block_size = 0 then some .valueError
  else if hop > block_size then some .valueError
  else if cap < block_size + hop then some .valueError
  else none

/-- The state a successful construction produces: zeroed storage of
`capacity` frames, cursors at 0, nothing buffered. -/
def mkBlockBuffer (block_size hop_size num_channels capacity : Nat)
    (auto_resize always_2d : Bool) : BlockBuffer :=
  { block_size := block_size
    hop_size := hop_size
    num_channels := num_channels
    capacity := capacity
    auto_resize := auto_resize
    always_2d := always_2d
    queue := List.replicate capacity (List.replicate num_channels 0)
    write_position := 0
    read_position := 0
    length := 0 }

/-- The argument shapes `extend` distinguishes at runtime:
a numpy array of 1, 2 or more dimensions, or a native Python list that is
flat or nested.  `ndarray2` carries `shape[1]` explicitly (for a 2-D numpy
array every row has that width); `ndarrayMore` stands for any array with
`ndim > 2`. -/
inductive FramesIn where
  | ndarray1 (xs : List Int)
  | ndarray2 (width : Nat) (rows : List Frame)
  | ndarrayMore (ndim : Nat)
  | pylist1 (xs : List Int)
  | pylist2 (rows : List Frame)
deriving DecidableEq

/-- The type-checking / shape-validation block at the top of `extend`.
Returns the exception kind raised, or `none` when the input passes.

Faithfulness notes:
* numpy, `ndim == 1` and `num_channels > 1`: the source decides to raise
  `BlockBufferValueException` but builds the message with
  `frames.shape[1]`, which for a 1-D array raises `IndexError: tuple index
  out of range` first — so the surfaced exception is `indexError`.
* native list: `frames[0]` is inspected unconditionally, so an empty list
  raises `IndexError` before any other check, for every `num_channels`. -/
def validateFrames (num_channels : Nat) (frames : FramesIn) : Option BBError :=
  match frames with
  | .ndarray1 _ =>
      if 1 < num_channels then some .indexError else none
  | .ndarray2 width _ =>
      if width ≠ num_channels then some .valueError else none
  | .ndarrayMore _ => some .valueError
  | .pylist1 xs =>
      match xs with
      | [] => some .indexError
      | _ :: _ => if num_channels = 1 then none else some .valueError
  | .pylist2 rows =>
      match rows with
      | [] => some .indexError
      | r :: _ =>
          if num_channels = 1 then some .valueError
          else if r.length ≠ num_channels then some .valueError
          else none

/-- The frame count of the input: `num_frames = len(frames)`. -/
def numFrames : FramesIn → Nat
  | .ndarray1 xs => xs.length
  | .ndarray2 _ rows => rows.length
  | .ndarrayMore _ => 0
  | .pylist1 xs => xs.length
  | .pylist2 rows => rows.length

/-- The incoming data as a list of frames.  A flat (1-D) input is written
into column 0; validation only lets it through with `num_channels = 1`,
where the row is exactly `[x]`. -/
def toRows : FramesIn → List Frame
  | .ndarray1 xs => xs.map fun x => [x]
  | .ndarray2 _ rows => rows
  | .ndarrayMore _ => []
  | .pylist1 xs => xs.map fun x => [x]
  | .pylist2 rows => rows

/-- The write loop of `extend`: frame `i` of the input is stored at ring
position `(wp + i) % cap`.  The source splits this into a non-wrapping
slice assignment and a wrapping pair of slice assignments (or a modulo
loop for nested lists); all branches store row `i` at `(wp + i) % cap`. -/
def writeRows (cap : Nat) : Nat → List Frame → List Frame → List Frame
  | _, q, [] => q
  | wp, q, r :: rs => writeRows cap (wp + 1) (q.set (wp % cap) r) rs

/-- The unconditional tail of `extend` once capacity is ensured:
`write_position %= capacity`, store the rows, `length += num_frames`,
`write_position += num_frames` (note: the final `write_position` is NOT
reduced modulo `capacity`; the source only normalizes it at the start of
the next `extend`). -/
def extendWrite (bb : BlockBuffer) (frames : FramesIn) (num_frames : Nat) :
    BlockBuffer :=
  let wp := bb.write_position % bb.capacity
  { bb with
    queue := writeRows bb.capacity wp bb.queue (toRows frames)
    length := bb.length + num_frames
    write_position := wp + num_frames }

/-- The method `BlockBuffer.extend`: validate, then grow or overflow, then write.
On auto-resize the source does `np.pad(queue, ((0, size_increase), (0, 0)))`
— `size_increase` zero frames appended at the PHYSICAL end of storage —
and `capacity += size_increase`. -/
def BlockBuffer.extend (bb : BlockBuffer) (frames : FramesIn) :
    Except BBError BlockBuffer :=
  match validateFrames bb.num_channels frames with
  | some e => .error e
  | none =>
      let num_frames := numFrames frames
      if bb.capacity < bb.length + num_frames then
        if bb.auto_resize then
          let size_increase := bb.length + num_frames - bb.capacity
          let grown : BlockBuffer :=
            { bb with
              queue := bb.queue ++
                List.replicate size_increase (List.replicate bb.num_channels 0)
              capacity := bb.capacity + size_increase }
          .ok (extendWrite grown frames num_frames)
        else .error .bufferFull
      else .ok (extendWrite bb frames num_frames)

/-- The block `get` materializes when `length >= block_size`:
`queue[read_position : read_position + block_size]` when the span fits,
otherwise the tail segment `queue[read_position:]` followed by the
wrapped-around head `queue[: block_size - remaining_frames]` (assembled in
`return_buffer`, whose every row is overwritten). -/
def readBlock (bb : BlockBuffer) : List Frame :=
  if bb.read_position + bb.block_size ≤ bb.capacity then
    (bb.queue.drop bb.read_position).take bb.block_size
  else
    bb.queue.drop bb.read_position ++
      bb.queue.take (bb.block_size - (bb.capacity - bb.read_position))

/-- The method `BlockBuffer.get`: returns the materialized block (before the final
channel shaping) and the successor state; `none` when fewer than
`block_size` frames are buffered.  On success the source does
`length -= hop_size` and `read_position = (read_position + hop_size) %
capacity`. -/
def BlockBuffer.get (bb : BlockBuffer) : Option (List Frame) × BlockBuffer :=
  if bb.block_size ≤ bb.length then
    (some (readBlock bb),
     { bb with
       length := bb.length - bb.hop_size
       read_position := (bb.read_position + bb.hop_size) % bb.capacity })
  else (none, bb)

/-- The shape of a returned block: flat for mono output, a
`block_size × num_channels` matrix otherwise. -/
inductive BlockOut where
  | flat (xs : List Int)
  | mat (rows : List Frame)
deriving DecidableEq

/-- The final shaping in `get`: `rv[:, 0]` when `num_channels == 1 and not
always_2d`, else the 2-D block itself. -/
def shapeOut (bb : BlockBuffer) (rows : List Frame) : BlockOut :=
  if bb.num_channels = 1 ∧ bb.always_2d = false then
    .flat (rows.map fun r => r.headI)
  else .mat rows

/-- Repeated `get` until absence (the `blocks` generator), bounded by
explicit fuel so the definition is total; every claim instantiates the
fuel above the number of available blocks. -/
def drainFuel : Nat → BlockBuffer → List (List Frame)
  | 0, _ => []
  | fuel + 1, bb =>
      match bb.get with
      | (none, _) => []
      | (some b, bb') => b :: drainFuel fuel bb'

/-- One step of a call trace: an `extend` with given input, or a `get`. -/
inductive OpR where
  | ext (f : FramesIn)
  | get
deriving DecidableEq

/-- Run a trace of operations, collecting each `get`'s shaped output; an
`extend` that raises aborts the trace with its error. -/
def runOps : BlockBuffer → List OpR → List (Option BlockOut) × Except BBError BlockBuffer
  | bb, [] => ([], .ok bb)
  | bb, .ext f :: ops =>
      match bb.extend f with
      | .ok bb' => runOps bb' ops
      | .error e => ([], .error e)
  | bb, .get :: ops =>
      let r := bb.get
      let rest := runOps r.2 ops
      (r.1.map (shapeOut bb) :: rest.1, rest.2)

/-- Modelled from the spec: the "equivalent non-wrapping configuration" —
an unbounded buffer holding the pending frames from the read position
onward.  `extend` appends. -/
def specExtend (pending rows : List Frame) : List Frame :=
  pending ++ rows

/-- Modelled from the spec: `get` on the non-wrapping model returns the
first `block_size` pending frames and advances by `hop_size`. -/
def specGet (block_size hop_size : Nat) (pending : List Frame) :
    Option (List Frame) × List Frame :=
  if block_size ≤ pending.length then
    (some (pending.take block_size), pending.drop hop_size)
  else (none, pending)

/-- Repeated `specGet` until absence, fuel-bounded like `drainFuel`. -/
def specDrainFuel (block_size hop_size : Nat) : Nat → List Frame → List (List Frame)
  | 0, _ => []
  | fuel + 1, pending =>
      if block_size ≤ pending.length then
        pending.take block_size ::
          specDrainFuel block_size hop_size fuel (pending.drop hop_size)
      else []

/-- The consecutive disjoint `block_size`-chunks of a list (any trailing
partial chunk is dropped). -/
def chunksOf {α : Type} (block_size : Nat) (l : List α) : List (List α) :=
  if _h : 0 < block_size ∧ block_size ≤ l.length then
    l.take block_size :: chunksOf block_size (l.drop block_size)
  else []
termination_by l.length
decreasing_by
  simp only [List.length_drop]
  omega

/-- The simulation relation between a ring-buffer state and the pending
list of the non-wrapping model: the `length` frames starting at
`read_position` (taken circularly) are exactly `pending`, the write cursor
sits at the end of that window modulo `capacity`, and the configuration is
one a successful construction can produce. -/
structure Sim (bb : BlockBuffer) (pending : List Frame) : Prop where
  len_eq : bb.length = pending.length
  len_le : bb.length ≤ bb.capacity
  rp_lt : bb.read_position < bb.capacity
  q_len : bb.queue.length = bb.capacity
  wp_mod : bb.write_position % bb.capacity =
    (bb.read_position + bb.length) % bb.capacity
  hop_pos : 0 < bb.hop_size
  hop_le : bb.hop_size ≤ bb.block_size
  window : ∀ i < bb.length,
    bb.queue[(bb.read_position + i) % bb.capacity]? = pending[i]?

/-! ## Arithmetic and list helper lemmas -/

theorem modAdd_cancel_ne {cap rp a b : Nat} (ha : a < cap) (hb : b < cap)
    (hne : a ≠ b) : (rp + a) % cap ≠ (rp + b) % cap := by
  intro h
  have hab : a ≡ b [MOD cap] := Nat.ModEq.add_left_cancel' rp h
  have : a = b := by
    have := hab
    unfold Nat.ModEq at this
    rwa [Nat.mod_eq_of_lt ha, Nat.mod_eq_of_lt hb] at this
  exact hne this

theorem writeRows_length (cap : Nat) (rows : List Frame) :
    ∀ (wp : Nat) (q : List Frame), (writeRows cap wp q rows).length = q.length := by
  induction rows with
  | nil => intro wp q; rfl
  | cons r rs ih =>
      intro wp q
      show (writeRows cap (wp + 1) (q.set (wp % cap) r) rs).length = q.length
      rw [ih, List.length_set]

theorem writeRows_getElem?_untouched (cap : Nat) (rows : List Frame) :
    ∀ (wp : Nat) (q : List Frame) (j : Nat),
      (∀ i < rows.length, (wp + i) % cap ≠ j) →
      (writeRows cap wp q rows)[j]? = q[j]? := by
  induction rows with
  | nil => intro wp q j _; rfl
  | cons r rs ih =>
      intro wp q j hj
      show (writeRows cap (wp + 1) (q.set (wp % cap) r) rs)[j]? = q[j]?
      rw [ih (wp + 1) _ j ?_]
      · have h0 : wp % cap ≠ j := by
          have := hj 0 (by simp)
          simpa using this
        rw [List.getElem?_set, if_neg h0]
      · intro i hi
        have h1 : i + 1 < (r :: rs).length := by simp; omega
        have := hj (i + 1) h1
        have harith : wp + (i + 1) = wp + 1 + i := by omega
        rwa [harith] at this

theorem writeRows_getElem?_written (cap : Nat) (rows : List Frame)
    (hrows : rows.length ≤ cap) :
    ∀ (wp : Nat) (q : List Frame), q.length = cap →
      ∀ i, i < rows.length →
        (writeRows cap wp q rows)[(wp + i) % cap]? = rows[i]? := by
  induction rows with
  | nil => intro wp q _ i hi; exact absurd hi (by simp)
  | cons r rs ih =>
      intro wp q hq i hi
      have hcap : 0 < cap := lt_of_lt_of_le (by simp) hrows
      show (writeRows cap (wp + 1) (q.set (wp % cap) r) rs)[(wp + i) % cap]? = _
      match i with
      | 0 =>
          rw [writeRows_getElem?_untouched cap rs (wp + 1) _ _ ?_]
          · have hlt : wp % cap < q.length := by
              rw [hq]; exact Nat.mod_lt _ hcap
            rw [Nat.add_zero, List.getElem?_set, if_pos rfl, if_pos hlt]
            simp
          · intro i' hi' heq
            have hsz : 1 + i' < cap := by
              have : rs.length + 1 ≤ cap := by simpa using hrows
              omega
            have harith : wp + 1 + i' = wp + (1 + i') := by omega
            rw [harith, Nat.add_zero] at heq
            have hmodeq : 1 + i' ≡ 0 [MOD cap] := by
              have : wp + (1 + i') ≡ wp + 0 [MOD cap] := by
                unfold Nat.ModEq
                simpa using heq
              exact Nat.ModEq.add_left_cancel' wp this
            have : (1 + i') % cap = 0 := by
              have := hmodeq
              unfold Nat.ModEq at this
              simpa using this
            rw [Nat.mod_eq_of_lt hsz] at this
            omega
      | i'' + 1 =>
          have hrs : rs.length ≤ cap := by simp at hrows; omega
          have hq2 : (q.set (wp % cap) r).length = cap := by
            rw [List.length_set, hq]
          have hi'' : i'' < rs.length := by simp at hi; omega
          have := ih hrs (wp + 1) (q.set (wp % cap) r) hq2 i'' hi''
          have harith : wp + 1 + i'' = wp + (i'' + 1) := by omega
          rw [harith] at this
          rw [this]
          simp

theorem toRows_length (f : FramesIn) : (toRows f).length = numFrames f := by
  cases f <;> simp [toRows, numFrames]

theorem readBlock_length (bb : BlockBuffer)
    (hq : bb.queue.length = bb.capacity)
    (hrp : bb.read_position < bb.capacity)
    (hB : bb.block_size ≤ bb.capacity) :
    (readBlock bb).length = bb.block_size := by
  unfold readBlock
  by_cases hc : bb.read_position + bb.block_size ≤ bb.capacity
  · rw [if_pos hc]
    simp only [List.length_take, List.length_drop, hq]
    omega
  · rw [if_neg hc]
    simp only [List.length_append, List.length_take, List.length_drop, hq]
    omega

theorem readBlock_getElem? (bb : BlockBuffer)
    (hq : bb.queue.length = bb.capacity)
    (hrp : bb.read_position < bb.capacity)
    (hB : bb.block_size ≤ bb.capacity) :
    ∀ i < bb.block_size,
      (readBlock bb)[i]? =
        bb.queue[(bb.read_position + i) % bb.capacity]? := by
  intro i hi
  unfold readBlock
  by_cases hc : bb.read_position + bb.block_size ≤ bb.capacity
  · rw [if_pos hc, List.getElem?_take, if_pos hi, List.getElem?_drop]
    congr 1
    exact (Nat.mod_eq_of_lt (by omega)).symm
  · rw [if_neg hc, List.getElem?_append]
    have hdl : (bb.queue.drop bb.read_position).length =
        bb.capacity - bb.read_position := by
      simp [hq]
    by_cases hi2 : i < bb.capacity - bb.read_position
    · rw [if_pos (by rw [hdl]; exact hi2), List.getElem?_drop]
      congr 1
      exact (Nat.mod_eq_of_lt (by omega)).symm
    · rw [if_neg (by rw [hdl]; exact hi2), hdl, List.getElem?_take,
        if_pos (by omega)]
      congr 1
      rw [Nat.mod_eq_sub_mod (by omega),
        Nat.mod_eq_of_lt (by omega)]
      omega

/-! ## Simulation against the non-wrapping model -/

theorem extend_sim (bb : BlockBuffer) (pending : List Frame) (f : FramesIn)
    (hsim : Sim bb pending)
    (hval : validateFrames bb.num_channels f = none)
    (hroom : bb.length + numFrames f ≤ bb.capacity) :
    bb.extend f = .ok (extendWrite bb f (numFrames f)) ∧
    Sim (extendWrite bb f (numFrames f)) (specExtend pending (toRows f)) := by
  have hn : (toRows f).length = numFrames f := toRows_length f
  have hcap : 0 < bb.capacity := lt_of_le_of_lt (Nat.zero_le _) hsim.rp_lt
  have hpl : pending.length = bb.length := hsim.len_eq.symm
  have hwpmod : ∀ i' : Nat,
      (bb.write_position % bb.capacity + i') % bb.capacity =
        (bb.read_position + (bb.length + i')) % bb.capacity := by
    intro i'
    rw [Nat.mod_add_mod]
    have h1 : bb.write_position + i' ≡
        bb.read_position + bb.length + i' [MOD bb.capacity] :=
      Nat.ModEq.add_right i' hsim.wp_mod
    have h2 : bb.read_position + bb.length + i' =
        bb.read_position + (bb.length + i') := by omega
    rw [← h2]
    exact h1
  constructor
  · have hnot : ¬ (bb.capacity < bb.length + numFrames f) := by omega
    simp only [BlockBuffer.extend, hval, hnot, if_false]
  · refine { len_eq := ?_, len_le := ?_, rp_lt := ?_, q_len := ?_,
             wp_mod := ?_, hop_pos := ?_, hop_le := ?_, window := ?_ }
    · simp only [extendWrite, specExtend, List.length_append]
      omega
    · simp only [extendWrite]
      exact hroom
    · simp only [extendWrite]
      exact hsim.rp_lt
    · simp only [extendWrite]
      rw [writeRows_length]
      exact hsim.q_len
    · simp only [extendWrite]
      exact hwpmod (numFrames f)
    · simp only [extendWrite]
      exact hsim.hop_pos
    · simp only [extendWrite]
      exact hsim.hop_le
    · simp only [extendWrite]
      intro i hi
      by_cases hilt : i < bb.length
      · rw [writeRows_getElem?_untouched _ _ _ _ _ ?_]
        · rw [hsim.window i hilt, specExtend, List.getElem?_append,
            if_pos (by omega)]
        · intro i' hi'
          have hi'' : i' < numFrames f := hn ▸ hi'
          rw [hwpmod i']
          exact modAdd_cancel_ne (by omega) (by omega) (by omega)
      · push_neg at hilt
        have hieq : bb.read_position + i =
            bb.read_position + (bb.length + (i - bb.length)) := by omega
        rw [hieq, ← hwpmod (i - bb.length),
          writeRows_getElem?_written _ _ (by omega) _ _ hsim.q_len _ (by omega),
          specExtend, List.getElem?_append_right (by omega), hpl]

theorem get_sim (bb : BlockBuffer) (pending : List Frame) (hsim : Sim bb pending) :
    (bb.get).1 = (specGet bb.block_size bb.hop_size pending).1 ∧
    Sim (bb.get).2 (specGet bb.block_size bb.hop_size pending).2 := by
  have hcap : 0 < bb.capacity := lt_of_le_of_lt (Nat.zero_le _) hsim.rp_lt
  by_cases hB : bb.block_size ≤ bb.length
  · have hBp : bb.block_size ≤ pending.length := hsim.len_eq ▸ hB
    have hBc : bb.block_size ≤ bb.capacity := le_trans hB hsim.len_le
    have hhop : bb.hop_size ≤ bb.length := le_trans hsim.hop_le hB
    have hread : readBlock bb = pending.take bb.block_size := by
      apply List.ext_getElem?
      intro n
      by_cases hn : n < bb.block_size
      · rw [readBlock_getElem? bb hsim.q_len hsim.rp_lt hBc n hn,
          List.getElem?_take, if_pos hn]
        exact hsim.window n (lt_of_lt_of_le hn hB)
      · rw [List.getElem?_eq_none, List.getElem?_take, if_neg hn]
        rw [readBlock_length bb hsim.q_len hsim.rp_lt hBc]
        omega
    constructor
    · unfold BlockBuffer.get specGet
      rw [if_pos hB, if_pos hBp, hread]
    · unfold BlockBuffer.get specGet
      rw [if_pos hB, if_pos hBp]
      refine { len_eq := ?_, len_le := ?_, rp_lt := ?_, q_len := ?_,
               wp_mod := ?_, hop_pos := ?_, hop_le := ?_, window := ?_ }
      · have h1 := hsim.len_eq
        simp only [List.length_drop]
        omega
      · have := hsim.len_le
        simp only []
        omega
      · exact Nat.mod_lt _ hcap
      · exact hsim.q_len
      · show bb.write_position % bb.capacity = _
        rw [Nat.mod_add_mod]
        have h3 : bb.read_position + bb.hop_size + (bb.length - bb.hop_size) =
            bb.read_position + bb.length := by omega
        rw [h3]
        exact hsim.wp_mod
      · exact hsim.hop_pos
      · exact hsim.hop_le
      · intro i hi
        show bb.queue[((bb.read_position + bb.hop_size) % bb.capacity + i) %
            bb.capacity]? = _
        rw [Nat.mod_add_mod]
        have h3 : bb.read_position + bb.hop_size + i =
            bb.read_position + (bb.hop_size + i) := by omega
        rw [h3, List.getElem?_drop]
        have hi2 : bb.hop_size + i < bb.length := by
          simp only [] at hi
          omega
        exact hsim.window _ hi2
  · have hBp : ¬ bb.block_size ≤ pending.length := hsim.len_eq ▸ hB
    constructor
    · unfold BlockBuffer.get specGet
      rw [if_neg hB, if_neg hBp]
    · unfold BlockBuffer.get specGet
      rw [if_neg hB, if_neg hBp]
      exact hsim

theorem get_snd_fields (bb : BlockBuffer) :
    (bb.get).2.block_size = bb.block_size ∧ (bb.get).2.hop_size = bb.hop_size ∧
    (bb.get).2.num_channels = bb.num_channels ∧
    (bb.get).2.always_2d = bb.always_2d := by
  unfold BlockBuffer.get
  by_cases h : bb.block_size ≤ bb.length
  · rw [if_pos h]; exact ⟨rfl, rfl, rfl, rfl⟩
  · rw [if_neg h]; exact ⟨rfl, rfl, rfl, rfl⟩

theorem drain_sim : ∀ (fuel : Nat) (bb : BlockBuffer) (pending : List Frame),
    Sim bb pending →
    drainFuel fuel bb = specDrainFuel bb.block_size bb.hop_size fuel pending := by
  intro fuel
  induction fuel with
  | zero => intro bb pending _; rfl
  | succ n ih =>
      intro bb pending hsim
      obtain ⟨hout, hsim'⟩ := get_sim bb pending hsim
      rcases hget : bb.get with ⟨o, bb2⟩
      have hbs : bb2.block_size = bb.block_size := by
        have h := (get_snd_fields bb).1
        rw [hget] at h
        exact h
      have hhs : bb2.hop_size = bb.hop_size := by
        have h := (get_snd_fields bb).2.1
        rw [hget] at h
        exact h
      rw [hget] at hout hsim'
      have hunfold : drainFuel (n + 1) bb =
          (match bb.get with
           | (none, _) => []
           | (some b, bb') => b :: drainFuel n bb') := rfl
      rw [hunfold, hget]
      by_cases hB : bb.block_size ≤ pending.length
      · have ho : o = some (pending.take bb.block_size) := by
          rw [show o = ((o, bb2) : Option (List Frame) × BlockBuffer).1 from rfl,
            hout]
          unfold specGet
          rw [if_pos hB]
        have hsim2 : Sim bb2 (pending.drop bb.hop_size) := by
          have h := hsim'
          unfold specGet at h
          rw [if_pos hB] at h
          exact h
        subst ho
        show pending.take bb.block_size :: drainFuel n bb2 = _
        simp only [specDrainFuel]
        rw [if_pos hB]
        congr 1
        rw [ih bb2 (pending.drop bb.hop_size) hsim2, hbs, hhs]
      · have ho : o = none := by
          rw [show o = ((o, bb2) : Option (List Frame) × BlockBuffer).1 from rfl,
            hout]
          unfold specGet
          rw [if_neg hB]
        subst ho
        show ([] : List (List Frame)) = _
        simp only [specDrainFuel]
        rw [if_neg hB]

theorem specDrainFuel_chunksOf (B : Nat) (hB : 0 < B) :
    ∀ (fuel : Nat) (p : List Frame), p.length < fuel →
      specDrainFuel B B fuel p = chunksOf B p := by
  intro fuel
  induction fuel with
  | zero => intro p hp; exact absurd hp (Nat.not_lt_zero _)
  | succ n ih =>
      intro p hp
      by_cases hBp : B ≤ p.length
      · rw [chunksOf, dif_pos ⟨hB, hBp⟩]
        simp only [specDrainFuel]
        rw [if_pos hBp]
        congr 1
        apply ih
        simp only [List.length_drop]
        omega
      · rw [chunksOf, dif_neg (by tauto)]
        simp only [specDrainFuel]
        rw [if_neg hBp]

theorem mk_sim (B H nc cap : Nat) (ar a2 : Bool) (hH : 0 < H) (hHB : H ≤ B)
    (hcap : 0 < cap) : Sim (mkBlockBuffer B H nc cap ar a2) [] := by
  refine { len_eq := rfl, len_le := Nat.zero_le _, rp_lt := hcap,
           q_len := ?_, wp_mod := rfl, hop_pos := hH, hop_le := hHB,
           window := ?_ }
  · simp [mkBlockBuffer]
  · intro i hi
    exact absurd hi (by simp [mkBlockBuffer])

theorem extend_empty_sim (bb bb1 : BlockBuffer) (f : FramesIn)
    (hsim : Sim bb [])
    (hval : validateFrames bb.num_channels f = none)
    (hwr : bb.write_position = bb.read_position)
    (hok : bb.extend f = .ok bb1) :
    Sim bb1 (toRows f) := by
  have hlen : bb.length = 0 := by
    have h := hsim.len_eq
    simpa using h
  by_cases hroom : bb.length + numFrames f ≤ bb.capacity
  · have h := extend_sim bb [] f hsim hval hroom
    rw [h.1] at hok
    injection hok with hok'
    rw [← hok']
    exact h.2
  · have hcaplt : bb.capacity < bb.length + numFrames f := by omega
    unfold BlockBuffer.extend at hok
    rw [hval] at hok
    simp only [hcaplt, if_true, if_pos] at hok
    cases habool : bb.auto_resize with
    | false =>
        rw [habool] at hok
        simp at hok
    | true =>
        rw [habool] at hok
        simp only [if_true] at hok
        set grown : BlockBuffer :=
          { bb with
            auto_resize := true
            queue := bb.queue ++
              List.replicate (bb.length + numFrames f - bb.capacity)
                (List.replicate bb.num_channels 0)
            capacity := bb.capacity +
              (bb.length + numFrames f - bb.capacity) } with hgrown
        have hok2 : (Except.ok (extendWrite grown f (numFrames f)) :
            Except BBError BlockBuffer) = .ok bb1 := by
          exact hok
        have hsimg : Sim grown [] := by
          refine { len_eq := hsim.len_eq, len_le := ?_, rp_lt := ?_,
                   q_len := ?_, wp_mod := ?_, hop_pos := hsim.hop_pos,
                   hop_le := hsim.hop_le, window := ?_ }
          · show bb.length ≤ bb.capacity + _
            omega
          · show bb.read_position < bb.capacity + _
            have := hsim.rp_lt
            omega
          · show (bb.queue ++ _).length = bb.capacity + _
            simp only [List.length_append, List.length_replicate, hsim.q_len]
          · show bb.write_position % _ = (bb.read_position + bb.length) % _
            rw [hwr, hlen, Nat.add_zero]
          · intro i hi
            rw [hlen] at hi
            exact absurd hi (Nat.not_lt_zero _)
        have hroomg : grown.length + numFrames f ≤ grown.capacity := by
          show bb.length + numFrames f ≤ bb.capacity + _
          omega
        have hvalg : validateFrames grown.num_channels f = none := hval
        have h := (extend_sim grown [] f hsimg hvalg hroomg).2
        injection hok2 with hok'
        rw [← hok']
        exact h

theorem chunksOf_map {α β : Type} (B : Nat) (f : α → β) :
    ∀ (n : Nat) (l : List α), l.length ≤ n →
      chunksOf B (l.map f) = (chunksOf B l).map (List.map f) := by
  intro n
  induction n with
  | zero =>
      intro l hl
      have hnl : l = [] := List.eq_nil_of_length_eq_zero (by omega)
      subst hnl
      rw [chunksOf, dif_neg (fun h => by simp at h; omega),
        chunksOf, dif_neg (fun h => by simp at h; omega)]
      rfl
  | succ n ih =>
      intro l hl
      by_cases hc : 0 < B ∧ B ≤ l.length
      · have hL : chunksOf B (l.map f) =
            (l.map f).take B :: chunksOf B ((l.map f).drop B) := by
          rw [chunksOf, dif_pos (by simp only [List.length_map]; exact hc)]
        have hR : chunksOf B l = l.take B :: chunksOf B (l.drop B) := by
          rw [chunksOf, dif_pos hc]
        rw [hL, hR]
        simp only [List.map_cons]
        congr 1
        · simp [List.map_take]
        · rw [← List.map_drop]
          apply ih
          simp only [List.length_drop]
          omega
      · rw [chunksOf, dif_neg (by simp only [List.length_map]; exact hc),
          chunksOf, dif_neg hc]
        rfl

theorem extend_ok_fields (bb bb' : BlockBuffer) (f : FramesIn)
    (hok : bb.extend f = .ok bb') :
    bb'.block_size = bb.block_size ∧ bb'.hop_size = bb.hop_size ∧
    bb'.num_channels = bb.num_channels ∧ bb'.always_2d = bb.always_2d ∧
    bb'.read_position = bb.read_position ∧
    bb'.auto_resize = bb.auto_resize := by
  unfold BlockBuffer.extend at hok
  cases hv : validateFrames bb.num_channels f with
  | some e => rw [hv] at hok; cases hok
  | none =>
      rw [hv] at hok
      by_cases hc : bb.capacity < bb.length + numFrames f
      · simp only [hc, if_true, if_pos] at hok
        cases ha : bb.auto_resize with
        | false => rw [ha] at hok; simp at hok
        | true =>
            rw [ha] at hok
            simp only [if_true] at hok
            injection hok with h
            rw [← h]
            exact ⟨rfl, rfl, rfl, rfl, rfl, rfl⟩
      · simp only [hc, if_false, if_neg] at hok
        injection hok with h
        rw [← h]
        exact ⟨rfl, rfl, rfl, rfl, rfl, rfl⟩

/-! ## Claim theorems -/

/-- C9 (code bug): the default capacity is `block_size * 64` frames
(`BLOCK_BUFFER_DEFAULT_CAPACITY_BLOCKS = 64`), not the `block_size * 8`
stated by the claim and by the constructor's own docstring; e.g. for
`block_size = 4` the default capacity is 256, not 32. -/
theorem C9_default_capacity :
    (∀ b : Int, capacityEff b none = b * 64) ∧
    capacityEff 4 none = 256 ∧ (4 * 8 : Int) ≠ 256 := by
  refine ⟨fun b => rfl, by decide, by decide⟩

/-- C10 (confirmed): extending with an empty native Python list always
raises, for every `num_channels`, and the exception is an `IndexError`
(from the unconditional `frames[0]`), not the documented `ValueError`. -/
theorem C10_extend_empty_list_indexError :
    (∀ bb : BlockBuffer,
      bb.extend (.pylist1 []) = .error .indexError ∧
      bb.extend (.pylist2 []) = .error .indexError) ∧
    (∀ num_channels : Nat,
      validateFrames num_channels (.pylist1 []) = some .indexError ∧
      validateFrames num_channels (.pylist2 []) = some .indexError) := by
  exact ⟨fun bb => ⟨rfl, rfl⟩, fun nc => ⟨rfl, rfl⟩⟩

/-- C8 (code bug): a 1-D numpy input with `num_channels > 1` is invalid,
but the code raises `IndexError` (from `frames.shape[1]` while building
the error message), not the `ValueError` the claim requires. -/
theorem C8_1d_ndarray_multichannel_indexError :
    validateFrames 2 (.ndarray1 [1, 2, 3]) = some .indexError ∧
    (mkBlockBuffer 4 4 2 512 true false).extend (.ndarray1 [1, 2, 3]) =
      .error .indexError ∧
    BBError.indexError ≠ BBError.valueError := by
  exact ⟨rfl, rfl, by decide⟩

/-- C6 counterexample: the claim says an explicitly supplied
`capacity = 0` and any `hop_size ≤ 0` raise `ValueError`; the code raises
neither — `capacity = 0` is falsy and silently selects the default, and a
negative `hop_size` passes every check. -/
theorem C6_counterexample :
    initError 4 (some 2) (some 0) = none ∧
    initError 8 (some (-1)) none = none := by
  exact ⟨by decide, by decide⟩

/-- C6 (amended): construction raises `ValueError` exactly when
`hop_eff = 0`, or `block_size = 0`, or `hop_eff > block_size`, or
`cap_eff < block_size + hop_eff`, where `hop_eff` is `hop_size`
(defaulting to `block_size`) and `cap_eff` is the supplied capacity when
it is truthy (non-`None` and nonzero) and `block_size * 64` otherwise.
In particular `capacity = 0` selects the default instead of raising, and
a negative `hop_size` is not rejected.  All checks precede the storage
allocation, so a failing construction allocates nothing. -/
theorem C6_construction_validation_amended :
    (∀ (block_size : Int) (hop_size capacity : Option Int),
      initError block_size hop_size capacity = some .valueError ↔
        (hopEff block_size hop_size = 0 ∨ block_size = 0 ∨
         block_size < hopEff block_size hop_size ∨
         capacityEff block_size capacity <
           block_size + hopEff block_size hop_size)) ∧
    (∀ (block_size : Int) (hop_size : Option Int),
      initError block_size hop_size (some 0) =
        initError block_size hop_size none) := by
  constructor
  · intro b h c
    simp only [initError]
    split_ifs with h1 h2 h3 h4 <;> simp <;> omega
  · intro b h
    rfl

/-- C5 (confirmed): with `auto_resize` disabled, an `extend` that would
exceed capacity raises `BufferFullError` before any mutation: the model
returns only the error and no successor state, mirroring the source,
where the `raise` sits before the write-position normalization and all
writes, so storage, cursors, `length` and `capacity` are untouched and
subsequent `get` calls behave as if the call never happened. -/
theorem C5_overflow_atomic (bb : BlockBuffer) (f : FramesIn)
    (hval : validateFrames bb.num_channels f = none)
    (hfull : bb.capacity < bb.length + numFrames f)
    (har : bb.auto_resize = false) :
    bb.extend f = .error .bufferFull := by
  unfold BlockBuffer.extend
  rw [hval]
  simp only [hfull, if_true, if_pos, har, Bool.false_eq_true, if_false]

theorem C5_overflow_atomic_witness :
    validateFrames (mkBlockBuffer 2 2 1 4 false false).num_channels
      (.pylist1 [1, 2, 3, 4, 5]) = none ∧
    (mkBlockBuffer 2 2 1 4 false false).capacity <
      (mkBlockBuffer 2 2 1 4 false false).length +
        numFrames (.pylist1 [1, 2, 3, 4, 5]) ∧
    (mkBlockBuffer 2 2 1 4 false false).extend (.pylist1 [1, 2, 3, 4, 5]) =
      .error .bufferFull :=
  ⟨by decide, by decide,
    C5_overflow_atomic (mkBlockBuffer 2 2 1 4 false false)
      (.pylist1 [1, 2, 3, 4, 5]) (by decide) (by decide) (by decide)⟩

/-- C7 counterexample: on a buffer with `block_size = hop_size = 2`,
`capacity = 4`, a single `extend` of four frames leaves
`write_position = 4`, which is outside `[0, 4)` and differs from
`(0 + 4) % 4 = 0` — the source adds `num_frames` without reducing
modulo `capacity` after the write. -/
theorem C7_counterexample :
    ((mkBlockBuffer 2 2 1 4 true false).extend (.pylist1 [1, 2, 3, 4])).map
        (fun b => (b.write_position, b.capacity)) = .ok (4, 4) ∧
    ¬ ((4 : Nat) < 4) ∧ (0 + 4) % 4 ≠ 4 := by
  exact ⟨by rfl, by decide, by decide⟩

/-- C7 (amended): `read_position` is in `[0, capacity)` after
construction and after every `extend` and `get`, and `get` leaves
`write_position` and `capacity` unchanged; but after an `extend` of
`num_frames` frames, `write_position` equals
`(pre-write write_position mod capacity) + num_frames`, which lies in
`[0, 2·capacity)` and is congruent to `old write_position + num_frames`
modulo the (possibly grown) capacity without being reduced into
`[0, capacity)`; it is normalized only at the start of the next
`extend`'s write phase. -/
theorem C7_cursor_invariant_amended :
    (∀ (B H nc cap : Nat) (ar a2 : Bool), 0 < cap →
      (mkBlockBuffer B H nc cap ar a2).read_position < cap ∧
      (mkBlockBuffer B H nc cap ar a2).write_position = 0) ∧
    (∀ (bb bb' : BlockBuffer) (f : FramesIn),
      bb.read_position < bb.capacity → bb.length ≤ bb.capacity →
      bb.extend f = .ok bb' →
      bb'.read_position = bb.read_position ∧
      bb'.read_position < bb'.capacity ∧
      bb'.length ≤ bb'.capacity ∧
      bb'.write_position =
        bb.write_position % bb'.capacity + numFrames f ∧
      bb'.write_position < 2 * bb'.capacity ∧
      bb'.write_position % bb'.capacity =
        (bb.write_position + numFrames f) % bb'.capacity) ∧
    (∀ bb : BlockBuffer, bb.read_position < bb.capacity →
      (bb.get).2.read_position < (bb.get).2.capacity ∧
      (bb.get).2.write_position = bb.write_position ∧
      (bb.get).2.capacity = bb.capacity) := by
  refine ⟨?_, ?_, ?_⟩
  · intro B H nc cap ar a2 hcap
    exact ⟨hcap, rfl⟩
  · intro bb bb' f hrp hlen hok
    have hcap : 0 < bb.capacity := lt_of_le_of_lt (Nat.zero_le _) hrp
    unfold BlockBuffer.extend at hok
    cases hv : validateFrames bb.num_channels f with
    | some e => rw [hv] at hok; cases hok
    | none =>
        rw [hv] at hok
        by_cases hc : bb.capacity < bb.length + numFrames f
        · simp only [hc, if_true, if_pos] at hok
          cases ha : bb.auto_resize with
          | false => rw [ha] at hok; simp at hok
          | true =>
              rw [ha] at hok
              simp only [if_true] at hok
              injection hok with h
              rw [← h]
              simp only [extendWrite]
              have hcap2 : bb.capacity ≤ bb.capacity +
                  (bb.length + numFrames f - bb.capacity) := by omega
              refine ⟨by trivial, by omega, by omega, by trivial, ?_, ?_⟩
              · have hm : bb.write_position %
                    (bb.capacity + (bb.length + numFrames f - bb.capacity)) <
                    bb.capacity + (bb.length + numFrames f - bb.capacity) :=
                  Nat.mod_lt _ (by omega)
                omega
              · rw [Nat.mod_add_mod]
        · simp only [hc, if_false, if_neg] at hok
          injection hok with h
          rw [← h]
          simp only [extendWrite]
          have hm : bb.write_position % bb.capacity < bb.capacity :=
            Nat.mod_lt _ hcap
          refine ⟨by trivial, hrp, by omega, by trivial, by omega, ?_⟩
          rw [Nat.mod_add_mod]
  · intro bb hrp
    have hcap : 0 < bb.capacity := lt_of_le_of_lt (Nat.zero_le _) hrp
    unfold BlockBuffer.get
    by_cases hB : bb.block_size ≤ bb.length
    · rw [if_pos hB]
      exact ⟨Nat.mod_lt _ hcap, rfl, rfl⟩
    · rw [if_neg hB]
      exact ⟨hrp, rfl, rfl⟩

theorem C7_cursor_invariant_witness :
    (mkBlockBuffer 2 2 1 4 true false).extend (.pylist1 [1, 2, 3, 4]) =
      .ok ({ mkBlockBuffer 2 2 1 4 true false with
             queue := [[1], [2], [3], [4]]
             write_position := 4
             length := 4 }) ∧
    ({ mkBlockBuffer 2 2 1 4 true false with
       queue := [[1], [2], [3], [4]]
       write_position := 4
       length := 4 } : BlockBuffer).write_position % 4 = (0 + 4) % 4 :=
  ⟨by rfl,
    ((C7_cursor_invariant_amended.2.1 (mkBlockBuffer 2 2 1 4 true false)
      ({ mkBlockBuffer 2 2 1 4 true false with
         queue := [[1], [2], [3], [4]]
         write_position := 4
         length := 4 }) (.pylist1 [1, 2, 3, 4])
      (by decide) (by decide) (by rfl)).2.2.2.2.2)⟩

/-- C2 (code bug): auto-resize appends the new zero frames at the
PHYSICAL end of storage (`np.pad`), not after the logical end of the
buffered data.  On `block_size = hop_size = 2`, `capacity = 4`: extend
`[1,2,3]`, read `[1,2]`, extend `[4,5,6]` (the live region now wraps),
then extend `[7]`.  Capacity grows by exactly the overflow amount
(4 + 1 = 5, as the claim states), but the wrapped sample `6` is
overwritten by the new write and a stale zero enters the stream: the
reads yield `[1,2]`, `[3,4]`, `[0,5]` instead of `[1,2]`, `[3,4]`,
`[5,6]` — previously written, not-yet-read samples are NOT preserved. -/
theorem C2_resize_wrapped_corruption :
    ((runOps (mkBlockBuffer 2 2 1 4 true false)
        [.ext (.pylist1 [1, 2, 3]), .get, .ext (.pylist1 [4, 5, 6]),
         .ext (.pylist1 [7]), .get, .get]).1 =
      [some (.flat [1, 2]), some (.flat [3, 4]), some (.flat [0, 5])]) ∧
    ((runOps (mkBlockBuffer 2 2 1 4 true false)
        [.ext (.pylist1 [1, 2, 3]), .get, .ext (.pylist1 [4, 5, 6]),
         .ext (.pylist1 [7])]).2.map (fun b => b.capacity) = .ok 5) ∧
    BlockOut.flat [0, 5] ≠ BlockOut.flat [5, 6] := by
  exact ⟨by decide, by rfl, by decide⟩

/-- C3 counterexample: the claim quantifies over every configuration in
which a `get` spans the physical end of storage.  After the trace
`extend [1,2,3]; get; extend [4,5,6]; extend [7]; get` on
`block_size = hop_size = 2`, `capacity = 4` (the last extend auto-resizes
while the live region wraps), the buffer reaches `read_position = 4`,
`capacity = 5`, `block_size = 2`, so the next read spans the physical
end — and returns `[[0],[5]]`, while the equivalent non-wrapping
(unbounded) configuration returns `[[5],[6]]` for the same call
sequence. -/
theorem C3_counterexample :
    ((runOps (mkBlockBuffer 2 2 1 4 true false)
        [.ext (.pylist1 [1, 2, 3]), .get, .ext (.pylist1 [4, 5, 6]),
         .ext (.pylist1 [7]), .get]).2.map
        (fun b => (b.read_position, b.capacity, b.block_size, (b.get).1)) =
      .ok (4, 5, 2, some [[0], [5]])) ∧
    ((specGet 2 2 ((specGet 2 2 (specExtend (specExtend
        ((specGet 2 2 (specExtend []
          (([1, 2, 3] : List Int).map fun x => [x]))).2)
        (([4, 5, 6] : List Int).map fun x => [x]))
        (([7] : List Int).map fun x => [x]))).2)).1 = some [[5], [6]]) ∧
    some [[(0 : Int)], [5]] ≠ some [[(5 : Int)], [6]] := by
  exact ⟨by rfl, by decide, by decide⟩

/-- C3 (amended): restricted to executions in which no auto-resize
occurs — every `extend` satisfies `length + num_frames ≤ capacity`, as
forced by the counterexample — the ring buffer refines the equivalent
non-wrapping (unbounded) configuration: from any state related to the
model by `Sim`, `get` returns exactly the model's block (in particular
when the span `[read_position, read_position + block_size)` crosses the
physical end of storage and the block is assembled from the tail plus
the wrapped head), a non-overflowing `extend` preserves the relation,
and whole read-out traces coincide. -/
theorem C3_wraparound_refinement (bb : BlockBuffer) (pending : List Frame)
    (f : FramesIn) (hsim : Sim bb pending) :
    ((bb.get).1 = (specGet bb.block_size bb.hop_size pending).1 ∧
      Sim (bb.get).2 (specGet bb.block_size bb.hop_size pending).2) ∧
    (validateFrames bb.num_channels f = none →
      bb.length + numFrames f ≤ bb.capacity →
      bb.extend f = .ok (extendWrite bb f (numFrames f)) ∧
      Sim (extendWrite bb f (numFrames f)) (specExtend pending (toRows f))) ∧
    (∀ fuel : Nat,
      drainFuel fuel bb =
        specDrainFuel bb.block_size bb.hop_size fuel pending) :=
  ⟨get_sim bb pending hsim,
   fun hval hroom => extend_sim bb pending f hsim hval hroom,
   fun fuel => drain_sim fuel bb pending hsim⟩

theorem C3_wraparound_refinement_witness :
    (({ block_size := 4, hop_size := 2, num_channels := 1, capacity := 6,
        auto_resize := true, always_2d := false,
        queue := [[7], [8], [3], [4], [5], [6]], write_position := 8,
        read_position := 4, length := 4 } : BlockBuffer).get).1 =
      (specGet 4 2 [[5], [6], [7], [8]]).1 :=
  (C3_wraparound_refinement
    ({ block_size := 4, hop_size := 2, num_channels := 1, capacity := 6,
       auto_resize := true, always_2d := false,
       queue := [[7], [8], [3], [4], [5], [6]], write_position := 8,
       read_position := 4, length := 4 } : BlockBuffer)
    [[5], [6], [7], [8]] (.pylist1 [])
    { len_eq := by decide, len_le := by decide, rp_lt := by decide,
      q_len := by decide, wp_mod := by decide, hop_pos := by decide,
      hop_le := by decide, window := by decide }).1.1

/-- C1 (confirmed): with `block_size = 8`, `hop_size = 2` and the
default capacity (512), after `extend [1..8]` then `extend [9..12]`,
three successive `get` calls return `[1..8]`, `[3..10]`, `[5..12]`.  In
general, whenever `block_size ≤ length`, `get` returns the `block_size`
frames starting at `read_position` (read circularly), then advances
`read_position` by `hop_size` modulo `capacity` and decrements `length`
by `hop_size`; consequently two consecutive blocks share
`block_size − hop_size` frames (the suffix of the first equals the
prefix of the second). -/
theorem C1_overlap_get :
    ((runOps (mkBlockBuffer 8 2 1 512 true false)
        [.ext (.pylist1 [1, 2, 3, 4, 5, 6, 7, 8]),
         .ext (.pylist1 [9, 10, 11, 12]), .get, .get, .get]).1 =
      [some (.flat [1, 2, 3, 4, 5, 6, 7, 8]),
       some (.flat [3, 4, 5, 6, 7, 8, 9, 10]),
       some (.flat [5, 6, 7, 8, 9, 10, 11, 12])]) ∧
    (∀ bb : BlockBuffer, bb.queue.length = bb.capacity →
      bb.read_position < bb.capacity → bb.length ≤ bb.capacity →
      bb.block_size ≤ bb.length →
      (bb.get).1 = some (readBlock bb) ∧
      (readBlock bb).length = bb.block_size ∧
      (∀ i < bb.block_size,
        (readBlock bb)[i]? =
          bb.queue[(bb.read_position + i) % bb.capacity]?) ∧
      (bb.get).2.read_position =
        (bb.read_position + bb.hop_size) % bb.capacity ∧
      (bb.get).2.length = bb.length - bb.hop_size) ∧
    (∀ bb : BlockBuffer, bb.queue.length = bb.capacity →
      bb.read_position < bb.capacity → bb.length ≤ bb.capacity →
      bb.hop_size ≤ bb.block_size →
      bb.block_size + bb.hop_size ≤ bb.length →
      ∃ b1 b2, (bb.get).1 = some b1 ∧ ((bb.get).2.get).1 = some b2 ∧
        b1.drop bb.hop_size = b2.take (bb.block_size - bb.hop_size)) := by
  refine ⟨by rfl, ?_, ?_⟩
  · intro bb hq hrp hlc hB
    have hBc : bb.block_size ≤ bb.capacity := le_trans hB hlc
    unfold BlockBuffer.get
    rw [if_pos hB]
    exact ⟨rfl, readBlock_length bb hq hrp hBc,
      readBlock_getElem? bb hq hrp hBc, rfl, rfl⟩
  · intro bb hq hrp hlc hhb hB2
    have hB : bb.block_size ≤ bb.length := by omega
    have hBc : bb.block_size ≤ bb.capacity := le_trans hB hlc
    have hcap : 0 < bb.capacity := lt_of_le_of_lt (Nat.zero_le _) hrp
    set bb2 : BlockBuffer :=
      { bb with
        length := bb.length - bb.hop_size
        read_position := (bb.read_position + bb.hop_size) % bb.capacity }
      with hbb2
    have hg : bb.get = (some (readBlock bb), bb2) := by
      unfold BlockBuffer.get
      rw [if_pos hB]
    have hB2' : bb2.block_size ≤ bb2.length := by
      show bb.block_size ≤ bb.length - bb.hop_size
      omega
    have hq2 : bb2.queue.length = bb2.capacity := hq
    have hrp2 : bb2.read_position < bb2.capacity := Nat.mod_lt _ hcap
    have hBc2 : bb2.block_size ≤ bb2.capacity := hBc
    have hg2 : (bb2.get).1 = some (readBlock bb2) := by
      unfold BlockBuffer.get
      rw [if_pos hB2']
    have hfb : bb2.block_size = bb.block_size := rfl
    have hfh : bb2.hop_size = bb.hop_size := rfl
    refine ⟨readBlock bb, readBlock bb2, by rw [hg], by rw [hg]; exact hg2, ?_⟩
    apply List.ext_getElem?
    intro j
    rw [List.getElem?_drop, List.getElem?_take]
    by_cases hj : j < bb.block_size - bb.hop_size
    · rw [if_pos hj,
        readBlock_getElem? bb hq hrp hBc _ (by omega),
        readBlock_getElem? bb2 hq2 hrp2 hBc2 j (by omega)]
      show bb.queue[(bb.read_position + (bb.hop_size + j)) % bb.capacity]? =
        bb.queue[((bb.read_position + bb.hop_size) % bb.capacity + j) %
          bb.capacity]?
      rw [Nat.mod_add_mod, Nat.add_assoc]
    · rw [if_neg hj]
      apply List.getElem?_eq_none
      rw [readBlock_length bb hq hrp hBc]
      omega

theorem C1_overlap_get_witness :
    ∃ b1 b2,
      (({ block_size := 4, hop_size := 2, num_channels := 1, capacity := 8,
          auto_resize := true, always_2d := false,
          queue := [[1], [2], [3], [4], [5], [6], [0], [0]],
          write_position := 6, read_position := 0, length := 6 } :
            BlockBuffer).get).1 = some b1 ∧
      ((({ block_size := 4, hop_size := 2, num_channels := 1, capacity := 8,
           auto_resize := true, always_2d := false,
           queue := [[1], [2], [3], [4], [5], [6], [0], [0]],
           write_position := 6, read_position := 0, length := 6 } :
             BlockBuffer).get).2.get).1 = some b2 ∧
      b1.drop 2 = b2.take (4 - 2) :=
  C1_overlap_get.2.2
    ({ block_size := 4, hop_size := 2, num_channels := 1, capacity := 8,
       auto_resize := true, always_2d := false,
       queue := [[1], [2], [3], [4], [5], [6], [0], [0]],
       write_position := 6, read_position := 0, length := 6 } : BlockBuffer)
    (by decide) (by decide) (by decide) (by decide) (by decide)

/-- C4 (confirmed): on a freshly constructed buffer with
`hop_size = block_size = B`, whenever extending with the flat run `1..N`
succeeds (as it always does with `auto_resize` enabled; a failing extend
writes nothing), repeatedly calling `get` until absence yields exactly
the consecutive, non-overlapping `B`-sized chunks of `1..N`, in order —
no sample lost, none duplicated (when `B` does not divide `N` the
trailing partial chunk stays buffered and is never emitted). -/
theorem C4_roundtrip_fifo (B cap N : Nat) (bb1 : BlockBuffer)
    (hB : 0 < B) (hcap : 0 < cap) (hN : 0 < N)
    (hok : (mkBlockBuffer B B 1 cap true false).extend
        (.pylist1 ((List.range' 1 N).map Int.ofNat)) = .ok bb1) :
    drainFuel (N + 1) bb1 =
      chunksOf B (((List.range' 1 N).map Int.ofNat).map fun x => [x]) ∧
    (drainFuel (N + 1) bb1).map (fun b => b.map fun r => r.headI) =
      chunksOf B ((List.range' 1 N).map Int.ofNat) := by
  set xs : List Int := (List.range' 1 N).map Int.ofNat with hxs
  have hxslen : xs.length = N := by rw [hxs]; simp
  have hxsne : xs ≠ [] := by
    intro hnil
    rw [hnil] at hxslen
    simp at hxslen
    omega
  have hval : validateFrames (mkBlockBuffer B B 1 cap true false).num_channels
      (.pylist1 xs) = none := by
    cases hxc : xs with
    | nil => exact absurd hxc hxsne
    | cons a as => rfl
  have hsim1 : Sim bb1 (toRows (.pylist1 xs)) :=
    extend_empty_sim _ bb1 _ (mk_sim B B 1 cap true false hB le_rfl hcap)
      hval rfl hok
  obtain ⟨hbs, hhs, -, -, -, -⟩ := extend_ok_fields _ bb1 _ hok
  have hb1 : bb1.block_size = B := by rw [hbs]; rfl
  have hh1 : bb1.hop_size = B := by rw [hhs]; rfl
  have hd : drainFuel (N + 1) bb1 =
      specDrainFuel B B (N + 1) (toRows (.pylist1 xs)) := by
    have h := drain_sim (N + 1) bb1 _ hsim1
    rwa [hb1, hh1] at h
  have hrowslen : (toRows (.pylist1 xs)).length = N := by
    show (xs.map fun x => [x]).length = N
    rw [List.length_map, hxslen]
  have hchunks : specDrainFuel B B (N + 1) (toRows (.pylist1 xs)) =
      chunksOf B (toRows (.pylist1 xs)) :=
    specDrainFuel_chunksOf B hB (N + 1) _ (by omega)
  have hmain : drainFuel (N + 1) bb1 = chunksOf B (xs.map fun x => [x]) := by
    rw [hd, hchunks]
    rfl
  refine ⟨hmain, ?_⟩
  rw [hmain, chunksOf_map B (fun x => ([x] : Frame)) xs.length xs le_rfl,
    List.map_map]
  have hcomp : ((fun b => List.map (fun r => List.headI r) b) ∘
      List.map fun x => ([x] : Frame)) = id := by
    funext c
    show ((c.map fun x => ([x] : Frame)).map fun r => r.headI) = c
    rw [List.map_map]
    show (c.map fun x => x) = c
    simp
  rw [hcomp, List.map_id]

theorem C4_roundtrip_fifo_witness :
    (mkBlockBuffer 2 2 1 4 true false).extend
        (.pylist1 ((List.range' 1 5).map Int.ofNat)) =
      .ok ({ block_size := 2, hop_size := 2, num_channels := 1,
             capacity := 5, auto_resize := true, always_2d := false,
             queue := [[1], [2], [3], [4], [5]], write_position := 5,
             read_position := 0, length := 5 }) ∧
    drainFuel 6 ({ block_size := 2, hop_size := 2, num_channels := 1,
                   capacity := 5, auto_resize := true, always_2d := false,
                   queue := [[1], [2], [3], [4], [5]], write_position := 5,
                   read_position := 0, length := 5 }) =
      chunksOf 2 (((List.range' 1 5).map Int.ofNat).map fun x => [x]) :=
  ⟨by rfl,
    (C4_roundtrip_fifo 2 4 5
      ({ block_size := 2, hop_size := 2, num_channels := 1,
         capacity := 5, auto_resize := true, always_2d := false,
         queue := [[1], [2], [3], [4], [5]], write_position := 5,
         read_position := 0, length := 5 })
      (by decide) (by decide) (by decide) (by rfl)).1⟩
